import Mathlib

/-!
# Verification of the actions-dependency-submission dependency engine

A shallow embedding of the repository's dependency discovery, resolution and
submission code, together with theorems settling the specification claims.

Embedded source files:
* `src/workflow-parser.ts` (reference extraction, file classification,
  directory walking),
* `src/dependency-scanner.ts` (worklist traversal, local path resolution,
  additional-path scanning),
* `src/dependency-submission.ts` (package-URL construction).

The fork resolver (`src/fork-resolver.ts`) and the fork-aware submitter
(`src/dependency-submitter.ts`) are not present in the source tree (only
their unit tests and caller are); they are modelled from the specification
where a claim needs them, and those definitions are marked
`Modelled from the spec:`.

The filesystem is embedded as a finite association list from absolute file
paths to parsed-YAML outcomes; `fs.promises` calls become lookups into it.
Machine strings are Lean `String`s; the JavaScript regular expressions used
by the source are single-pattern matchers translated to explicit character
scans.
-/

set_option autoImplicit false

namespace ActionsDeps

/-! ## String helpers

The JavaScript string primitives used by the source, written as character
list scans so that every concrete evaluation reduces in the kernel. -/

/-- JavaScript `s.startsWith(pre)`. -/
def strStartsWith (s pre : String) : Bool :=
  pre.data.isPrefixOf s.data

/-- JavaScript `s.endsWith(suf)`. -/
def strEndsWith (s suf : String) : Bool :=
  suf.data.isSuffixOf s.data

/-- Split a character list at the first occurrence of `c`: returns the
characters before it and the characters after it. Used to translate the
source regular expressions, whose separator is a single character. -/
def splitAtFirst (c : Char) : List Char → Option (List Char × List Char)
  | [] => none
  | x :: xs =>
    if x = c then some ([], xs)
    else (splitAtFirst c xs).map (fun pr => (x :: pr.1, pr.2))

/-! ## Path model

POSIX-style absolute paths as strings, with Node's `path.dirname`,
`path.resolve` and `path.join` translated to segment manipulation. -/

/-- Split a character list into `/`-separated chunks (possibly empty). -/
def segsAux : List Char → List Char → List String
  | [], cur => [String.mk cur.reverse]
  | c :: rest, cur =>
    if c = '/' then String.mk cur.reverse :: segsAux rest []
    else segsAux rest (c :: cur)

/-- The nonempty path segments of `p`. -/
def pathSegments (p : String) : List String :=
  (segsAux p.data []).filter (fun s => s ≠ "")

/-- Interleave `/` between segments. -/
def concatSegs : List String → String
  | [] => ""
  | [s] => s
  | s :: rest => s ++ "/" ++ concatSegs rest

/-- Rebuild an absolute path from segments. -/
def joinSegs (segs : List String) : String :=
  "/" ++ concatSegs segs

/-- Process `.` and `..` segments the way Node normalizes an absolute path:
`.` is dropped, `..` pops the previous segment (and is a no-op at the
root). `acc` holds the already-processed segments in reverse. -/
def normSegs : List String → List String → List String
  | [], acc => acc.reverse
  | s :: rest, acc =>
    if s = "." then normSegs rest acc
    else if s = ".." then normSegs rest acc.tail
    else normSegs rest (s :: acc)

/-- Normalize an absolute path string. -/
def normalizeAbs (p : String) : String :=
  joinSegs (normSegs (pathSegments p) [])

/-- Node `path.resolve(dir, rel)` for an absolute `dir`. -/
def resolvePath (dir rel : String) : String :=
  if strStartsWith rel "/" then normalizeAbs rel
  else normalizeAbs (dir ++ "/" ++ rel)

/-- Node `path.dirname(p)` for an absolute, normalized `p`. -/
def dirname (p : String) : String :=
  joinSegs (pathSegments p).dropLast

/-- Node `path.join(a, b)` for an absolute `a`. -/
def joinPath (a b : String) : String :=
  normalizeAbs (a ++ "/" ++ b)

/-! ## Parsed-document data model

The source treats parsed YAML as an untyped tree and probes the fields
`runs.using`, `runs.steps`, `jobs`, `jobs.<name>.uses`, `jobs.<name>.steps`
and `steps[i].uses`. The embedding records exactly those fields. -/

/-- One entry of a `steps` sequence: only its optional `uses` field is read. -/
structure Step where
  uses : Option String
deriving DecidableEq

/-- One job of a workflow: its optional job-level `uses` and its optional
`steps` sequence. -/
structure Job where
  uses : Option String
  steps : Option (List Step)
deriving DecidableEq

/-- A successfully parsed YAML document, restricted to the fields the source
reads. `runsUsingComposite` is the truth of
`parsed.runs && parsed.runs.using === 'composite'`; `jobs` keeps the
object's insertion order as a list of named jobs. -/
structure Doc where
  runsUsingComposite : Bool
  runsSteps : Option (List Step)
  jobs : Option (List (String × Job))
deriving DecidableEq

/-- The outcome of reading and YAML-parsing one file: `malformed` when
`yaml.parse` throws, `empty` when it returns a falsy value, `doc` otherwise. -/
inductive YamlContent where
  | malformed
  | empty
  | doc (d : Doc)
deriving DecidableEq

/-- The filesystem: a finite listing of absolute file paths with their
parse outcome. Directories are implicit (a path `d` is a directory when
some listed file lies strictly below `d/`). Enumeration order is the
listing order. -/
def FS := List (String × YamlContent)

/-- `ActionDependency` from `src/types.ts`; the constant `type: 'action'`
field is omitted. -/
structure ActionDependency where
  name : String
  version : String
  source : String
deriving DecidableEq

/-- The classification of one `uses` string: a local path reference or a
remote `coordinate@ref` reference (the source's `docker` kind is never
returned, `parseActionUses` yields `null` for it). -/
inductive UsesRef where
  | localRef (path : String)
  | remote (name version : String)
deriving DecidableEq

/-- A thrown exception escaping `parseWorkflowFile`: `ioError` when
`fs.promises.readFile` rejects, `parseError` when `yaml.parse` throws. -/
inductive ScanErr where
  | ioError (p : String)
  | parseError (p : String)
deriving DecidableEq

/-- `WorkflowFile` from `src/types.ts`: the extraction result for one file. -/
structure ParsedFile where
  path : String
  dependencies : List ActionDependency
  localActions : List String
  callableWorkflows : List String
deriving DecidableEq

/-! ## Reference classification (`parseActionUses` / `parseWorkflowUses`) -/

/-- The local-reference prefix test shared by both parse functions:
`./`, `../`, `.\` or `..\`. -/
def isLocalRef (s : String) : Bool :=
  strStartsWith s "./" || strStartsWith s "../" ||
    strStartsWith s ".\\" || strStartsWith s "..\\"

/-- The regular expression `^([^@]+)@(.+)$` of the source: a match splits at
the first `@`, requiring nonempty text on both sides. -/
def parseUsesRemote (s : String) : Option UsesRef :=
  match splitAtFirst '@' s.data with
  | some (nm, ref) =>
    if nm ≠ [] ∧ ref ≠ [] then some (.remote (String.mk nm) (String.mk ref))
    else none
  | none => none

/-- `parseActionUses` from `src/workflow-parser.ts`: step-level `uses`
classification (docker references are skipped first). -/
def parseActionUses (s : String) : Option UsesRef :=
  if strStartsWith s "docker://" then none
  else if isLocalRef s then some (.localRef s)
  else parseUsesRemote s

/-- `parseWorkflowUses` from `src/workflow-parser.ts`: job-level `uses`
classification. Note it has no docker case. -/
def parseWorkflowUses (s : String) : Option UsesRef :=
  if isLocalRef s then some (.localRef s)
  else parseUsesRemote s

/-! ## Extraction (`extractFromCompositeAction` / `extractFromWorkflow`) -/

/-- The per-step part of both extractors: returns the remote dependencies
and the local action paths contributed by a `steps` sequence, in order. -/
def stepRefs : List Step → List ActionDependency × List String
  | [] => ([], [])
  | step :: rest =>
    let tailRefs := stepRefs rest
    match step.uses with
    | none => tailRefs
    | some u =>
      match parseActionUses u with
      | some (.localRef p) => (tailRefs.1, p :: tailRefs.2)
      | some (.remote n v) =>
        ({ name := n, version := v, source := u } :: tailRefs.1, tailRefs.2)
      | none => tailRefs

/-- The contribution of one job: its job-level `uses` (a callable-workflow
or remote reference) followed by its steps' references. Returns
(dependencies, localActions, callableWorkflows). -/
def jobRefs1 (job : Job) : List ActionDependency × List String × List String :=
  let fromUses : List ActionDependency × List String :=
    match job.uses with
    | some u =>
      match parseWorkflowUses u with
      | some (.localRef p) => ([], [p])
      | some (.remote n v) => ([{ name := n, version := v, source := u }], [])
      | none => ([], [])
    | none => ([], [])
  let fromSteps :=
    match job.steps with
    | some steps => stepRefs steps
    | none => ([], [])
  (fromUses.1 ++ fromSteps.1, fromSteps.2, fromUses.2)

/-- `extractFromWorkflow`: fold `jobRefs1` over the jobs in order. -/
def jobRefs : List (String × Job) → List ActionDependency × List String × List String
  | [] => ([], [], [])
  | (_, j) :: rest =>
    let a := jobRefs1 j
    let b := jobRefs rest
    (a.1 ++ b.1, a.2.1 ++ b.2.1, a.2.2 ++ b.2.2)

/-- The pure part of `parseWorkflowFile`: dispatch on the document shape
(composite action first, then workflow, else nothing). -/
def extractFile (p : String) : YamlContent → ParsedFile
  | .doc d =>
    if d.runsUsingComposite then
      match d.runsSteps with
      | some steps =>
        let refs := stepRefs steps
        ⟨p, refs.1, refs.2, []⟩
      | none => ⟨p, [], [], []⟩
    else
      match d.jobs with
      | some js =>
        let refs := jobRefs js
        ⟨p, refs.1, refs.2.1, refs.2.2⟩
      | none => ⟨p, [], [], []⟩
  | _ => ⟨p, [], [], []⟩

/-- `parseWorkflowFile` from `src/workflow-parser.ts`. It does not catch
exceptions: a missing file or malformed YAML propagates as an error. -/
def parseWorkflowFile (fs : FS) (p : String) : Except ScanErr ParsedFile :=
  match List.lookup p fs with
  | none => .error (.ioError p)
  | some .malformed => .error (.parseError p)
  | some c => .ok (extractFile p c)

/-- `isCompositeAction` from `src/workflow-parser.ts`: read and parse the
file, returning false on any failure (its own try/catch). -/
def isCompositeAction (fs : FS) (p : String) : Bool :=
  match List.lookup p fs with
  | some (.doc d) => d.runsUsingComposite
  | _ => false

/-- `.yml` / `.yaml` extension test used by the walker and `findActionYml`. -/
def isYamlFile (p : String) : Bool :=
  strEndsWith p ".yml" || strEndsWith p ".yaml"

/-- `findWorkflowFiles` from `src/workflow-parser.ts`: the recursive
directory walk collecting `.yml`/`.yaml` files, in listing order; a missing
or unreadable directory contributes nothing (its own try/catch). -/
def findWorkflowFiles (fs : FS) (dirPath : String) : List String :=
  (fs.filter (fun e => strStartsWith e.1 (dirPath ++ "/") && isYamlFile e.1)).map Prod.fst

/-! ## Local path handling (`src/dependency-scanner.ts`) -/

/-- `fileExists` from `src/dependency-scanner.ts` (`fs.promises.access`). -/
def fileExists (fs : FS) (p : String) : Bool :=
  (List.lookup p fs).isSome

/-- Whether `p` is a directory: some listed file lies strictly below it. -/
def isDirIn (fs : FS) (p : String) : Bool :=
  fs.any (fun e => strStartsWith e.1 (p ++ "/"))

/-- `findActionYml` from `src/dependency-scanner.ts`: a `.yml`/`.yaml` file
is returned directly; a directory is probed for `action.yml` then
`action.yaml`; anything else (including a failed `stat`) yields nothing. -/
def findActionYml (fs : FS) (dirPath : String) : Option String :=
  if fileExists fs dirPath then
    if isYamlFile dirPath then some dirPath else none
  else if isDirIn fs dirPath then
    if fileExists fs (dirPath ++ "/action.yml") then some (dirPath ++ "/action.yml")
    else if fileExists fs (dirPath ++ "/action.yaml") then some (dirPath ++ "/action.yaml")
    else none
  else none

/-- `resolveLocalPath` from `src/dependency-scanner.ts`: resolve against the
referencing file's directory and keep the result only when the resolved
string starts with `repoRoot` (the source's `resolved.startsWith(repoRoot)`
containment check). -/
def resolveLocalPath (workflowFile localPath repoRoot : String) : Option String :=
  let workflowDir := dirname workflowFile
  let resolved := resolvePath workflowDir localPath
  if strStartsWith resolved repoRoot then some resolved else none

/-! ## The dependency map

`allDependencies` is a JavaScript `Map` keyed by `name@version`; insertion
order is preserved and `set` is guarded by `has`, so it is embedded as an
association list with insert-if-absent append. -/

/-- The dependency map. -/
abbrev DepMap := List (String × ActionDependency)

/-- The map key of a dependency (the template `name@version`). -/
def depKey (d : ActionDependency) : String :=
  d.name ++ "@" ++ d.version

/-- The guarded insertion of the scanner: a present key is left untouched,
a new key is appended. -/
def addDep (m : DepMap) (d : ActionDependency) : DepMap :=
  if (List.lookup (depKey d) m).isSome then m else m ++ [(depKey d, d)]

/-- Fold `addDep` over one file's dependency list, in order. -/
def addDeps (m : DepMap) : List ActionDependency → DepMap
  | [] => m
  | d :: rest => addDeps (addDep m d) rest

/-! ## The scanner state and worklist loop

`ScanState.log` is ghost instrumentation: it records, in order, the paths
passed to `fs.promises.readFile` (inside `parseWorkflowFile` and
`isCompositeAction`). It influences no control flow and no other field. -/

/-- The mutable state of `scanDependencies`: the result map, the
`processedFiles` set (most recent first) and the ghost read log. -/
structure ScanState where
  deps : DepMap
  processed : List String
  log : List String
deriving DecidableEq

/-- The `localActions` loop inside `scanDependencies` (both in the worklist
body and the additional-path phase): resolve each local action path, locate
its manifest, and collect unprocessed composite manifests for the queue.
Returns the queued paths in order, plus the state with the reads of the
`isCompositeAction` probes logged. -/
def processLocalActions (fs : FS) (repoRoot file : String) :
    List String → ScanState → List String × ScanState
  | [], st => ([], st)
  | la :: rest, st =>
    match resolveLocalPath file la repoRoot with
    | none => processLocalActions fs repoRoot file rest st
    | some localPath =>
      match findActionYml fs localPath with
      | none => processLocalActions fs repoRoot file rest st
      | some actionYml =>
        if actionYml ∈ st.processed then
          processLocalActions fs repoRoot file rest st
        else
          let st1 : ScanState := { st with log := st.log ++ [actionYml] }
          if isCompositeAction fs actionYml then
            let r := processLocalActions fs repoRoot file rest st1
            (actionYml :: r.1, r.2)
          else
            processLocalActions fs repoRoot file rest st1

/-- The `callableWorkflows` loop inside `scanDependencies`: resolve each
local workflow path and queue it unless already processed (no composite
filter and no existence check). -/
def processCallableWorkflows (repoRoot file : String) :
    List String → List String → List String
  | [], _ => []
  | cw :: rest, processed =>
    match resolveLocalPath file cw repoRoot with
    | some wp =>
      if wp ∈ processed then processCallableWorkflows repoRoot file rest processed
      else wp :: processCallableWorkflows repoRoot file rest processed
    | none => processCallableWorkflows repoRoot file rest processed

/-- The body of one successful worklist visit: merge the file's remote
dependencies and compute the paths pushed onto the queue (local-action
pushes first, then callable-workflow pushes, as in the source). -/
def visitStep (fs : FS) (repoRoot file : String) (parsed : ParsedFile)
    (st : ScanState) : ScanState × List String :=
  let st2 : ScanState := { st with deps := addDeps st.deps parsed.dependencies }
  let r := processLocalActions fs repoRoot file parsed.localActions st2
  let pushesW := processCallableWorkflows repoRoot file parsed.callableWorkflows r.2.processed
  (r.2, r.1 ++ pushesW)

/-- The `while (filesToProcess.length > 0)` loop of `scanDependencies`,
with explicit fuel (each iteration consumes one unit; `none` means the fuel
ran out — `scanLoopF_isSome` below shows the bound used by `runScan` always
suffices). A popped file is skipped when falsy or already processed;
otherwise it is marked processed, read and parsed (a failure propagates,
aborting the loop), its dependencies merged and its local references
pushed. -/
def scanLoopF (fs : FS) (repoRoot : String) :
    Nat → List String → ScanState → Option (Except ScanErr ScanState)
  | 0, _, _ => none
  | _ + 1, [], st => some (.ok st)
  | fuel + 1, file :: rest, st =>
    if file = "" ∨ file ∈ st.processed then
      scanLoopF fs repoRoot fuel rest st
    else
      let st1 : ScanState :=
        { st with processed := file :: st.processed, log := st.log ++ [file] }
      match parseWorkflowFile fs file with
      | .error e => some (.error e)
      | .ok parsed =>
        let r := visitStep fs repoRoot file parsed st1
        scanLoopF fs repoRoot fuel (rest ++ r.2) r.1

/-! ### Fuel sufficiency -/

/-- An upper bound on the queue pushes one parsed document can cause: its
composite steps plus, per job, the job-level reference and its steps. -/
def refBound : YamlContent → Nat
  | .doc d =>
    (d.runsSteps.getD []).length +
      ((d.jobs.getD []).map (fun j => 1 + (j.2.steps.getD []).length)).sum
  | _ => 0

/-- The pushes still available from files not yet processed. -/
def pendingBound (fs : FS) (processed : List String) : Nat :=
  ((fs.filter (fun e => decide (e.1 ∉ processed))).map (fun e => refBound e.2)).sum

theorem stepRefs_localActions_le (steps : List Step) :
    (stepRefs steps).2.length ≤ steps.length := by
  induction steps with
  | nil => simp [stepRefs]
  | cons s rest ih =>
    simp only [stepRefs]
    split
    · exact Nat.le_succ_of_le ih
    · split
      · simpa using Nat.succ_le_succ ih
      · exact Nat.le_succ_of_le ih
      · exact Nat.le_succ_of_le ih

theorem jobRefs1_le (j : Job) :
    (jobRefs1 j).2.1.length + (jobRefs1 j).2.2.length ≤
      1 + (j.steps.getD []).length := by
  obtain ⟨uses, steps⟩ := j
  cases steps with
  | none =>
    cases uses with
    | none => simp [jobRefs1]
    | some u =>
      cases hp : parseWorkflowUses u with
      | none => simp [jobRefs1, hp]
      | some r => cases r <;> simp [jobRefs1, hp]
  | some ss =>
    have hb := stepRefs_localActions_le ss
    cases uses with
    | none =>
      simp only [jobRefs1, Option.getD_some, List.nil_append, List.length_nil]
      omega
    | some u =>
      cases hp : parseWorkflowUses u with
      | none =>
        simp only [jobRefs1, hp, Option.getD_some, List.nil_append, List.length_nil]
        omega
      | some r =>
        cases r with
        | localRef p =>
          simp only [jobRefs1, hp, Option.getD_some, List.nil_append,
            List.length_nil, List.length_cons, List.length_singleton]
          omega
        | remote n v =>
          simp only [jobRefs1, hp, Option.getD_some, List.nil_append,
            List.length_nil, List.length_cons, List.length_singleton]
          omega

theorem jobRefs_le (js : List (String × Job)) :
    (jobRefs js).2.1.length + (jobRefs js).2.2.length ≤
      (js.map (fun j => 1 + (j.2.steps.getD []).length)).sum := by
  induction js with
  | nil => simp [jobRefs]
  | cons j rest ih =>
    obtain ⟨nm, job⟩ := j
    have h1 := jobRefs1_le job
    simp only [jobRefs, List.map_cons, List.sum_cons, List.length_append]
    omega

theorem extractFile_refs_le (p : String) (c : YamlContent) :
    (extractFile p c).localActions.length +
      (extractFile p c).callableWorkflows.length ≤ refBound c := by
  cases c with
  | malformed => simp [extractFile, refBound]
  | empty => simp [extractFile, refBound]
  | doc d =>
    by_cases hc : d.runsUsingComposite
    · cases hs : d.runsSteps with
      | none => simp [extractFile, refBound, hc, hs]
      | some steps =>
        have hb := stepRefs_localActions_le steps
        simp only [extractFile, refBound, hc, hs, if_true, Option.getD_some,
          List.length_nil]
        omega
    · cases hj : d.jobs with
      | none => simp [extractFile, refBound, hc, hj]
      | some js =>
        have hb := jobRefs_le js
        simp only [extractFile, refBound, hc, hj, if_false, Option.getD_some,
          Bool.false_eq_true, List.length_nil]
        omega

theorem processLocalActions_le (fs : FS) (repoRoot file : String)
    (las : List String) (st : ScanState) :
    (processLocalActions fs repoRoot file las st).1.length ≤ las.length := by
  induction las generalizing st with
  | nil => simp [processLocalActions]
  | cons la rest ih =>
    simp only [processLocalActions]
    split
    · exact Nat.le_succ_of_le (ih st)
    · split
      · exact Nat.le_succ_of_le (ih st)
      · split
        · exact Nat.le_succ_of_le (ih st)
        · split
          · simpa using Nat.succ_le_succ (ih _)
          · exact Nat.le_succ_of_le (ih _)

theorem processCallableWorkflows_le (repoRoot file : String)
    (cws processed : List String) :
    (processCallableWorkflows repoRoot file cws processed).length ≤ cws.length := by
  induction cws with
  | nil => simp [processCallableWorkflows]
  | cons cw rest ih =>
    simp only [processCallableWorkflows]
    split
    · split
      · exact Nat.le_succ_of_le ih
      · simpa using Nat.succ_le_succ ih
    · exact Nat.le_succ_of_le ih

theorem processLocalActions_processed (fs : FS) (repoRoot file : String)
    (las : List String) (st : ScanState) :
    (processLocalActions fs repoRoot file las st).2.processed = st.processed ∧
      (processLocalActions fs repoRoot file las st).2.deps = st.deps := by
  induction las generalizing st with
  | nil => simp [processLocalActions]
  | cons la rest ih =>
    simp only [processLocalActions]
    split
    · exact ih st
    · split
      · exact ih st
      · split
        · exact ih st
        · split
          · simpa using ih _
          · exact ih _

theorem visitStep_state (fs : FS) (repoRoot file : String)
    (parsed : ParsedFile) (st : ScanState) :
    (visitStep fs repoRoot file parsed st).1.processed = st.processed ∧
      (visitStep fs repoRoot file parsed st).1.deps =
        addDeps st.deps parsed.dependencies := by
  have h := processLocalActions_processed fs repoRoot file parsed.localActions
    { st with deps := addDeps st.deps parsed.dependencies }
  simp only [visitStep]
  exact ⟨h.1, h.2⟩

theorem visitStep_pushes_le (fs : FS) (repoRoot file : String)
    (parsed : ParsedFile) (st : ScanState) :
    (visitStep fs repoRoot file parsed st).2.length ≤
      parsed.localActions.length + parsed.callableWorkflows.length := by
  simp only [visitStep, List.length_append]
  exact Nat.add_le_add
    (processLocalActions_le fs repoRoot file parsed.localActions _)
    (processCallableWorkflows_le repoRoot file parsed.callableWorkflows _)

theorem pendingBound_mono (fs : FS) (p : String) (processed : List String) :
    pendingBound fs (p :: processed) ≤ pendingBound fs processed := by
  induction fs with
  | nil => simp [pendingBound]
  | cons e rest ih =>
    simp only [pendingBound, List.filter_cons, decide_eq_true_eq] at *
    by_cases h1 : e.1 ∉ (p :: processed)
    · have h2 : e.1 ∉ processed := fun hm => h1 (List.mem_cons_of_mem _ hm)
      rw [if_pos h1, if_pos h2]
      simp only [List.map_cons, List.sum_cons]
      omega
    · rw [if_neg h1]
      by_cases h2 : e.1 ∉ processed
      · rw [if_pos h2]
        simp only [List.map_cons, List.sum_cons]
        omega
      · rw [if_neg h2]
        exact ih

theorem pendingBound_visit (fs : FS) (p : String) (c : YamlContent)
    (processed : List String) (hlk : List.lookup p fs = some c)
    (hmem : p ∉ processed) :
    pendingBound fs (p :: processed) + refBound c ≤ pendingBound fs processed := by
  induction fs with
  | nil => simp [List.lookup] at hlk
  | cons e rest ih =>
    obtain ⟨q, cc⟩ := e
    by_cases hq : p = q
    · subst hq
      simp only [List.lookup, beq_self_eq_true, if_true, Option.some.injEq] at hlk
      subst hlk
      simp only [pendingBound, List.filter_cons, decide_eq_true_eq]
      have h1 : ¬ (p ∉ (p :: processed)) := by simp
      rw [if_neg h1, if_pos hmem]
      simp only [List.map_cons, List.sum_cons]
      have := pendingBound_mono rest p processed
      simp only [pendingBound] at this
      omega
    · have hq' : (p == q) = false := by simp [hq]
      simp only [List.lookup, hq', Bool.false_eq_true, if_false] at hlk
      have ihr := ih hlk
      simp only [pendingBound, List.filter_cons, decide_eq_true_eq] at *
      by_cases h2 : q ∉ processed
      · have h1 : q ∉ (p :: processed) := by
          intro hm
          rcases List.mem_cons.mp hm with h | h
          · exact hq h.symm
          · exact h2 h
        rw [if_pos h1, if_pos h2]
        simp only [List.map_cons, List.sum_cons]
        omega
      · have h1 : ¬ q ∉ (p :: processed) := by
          intro hcon
          exact hcon (List.mem_cons_of_mem _ (not_not.mp h2))
        rw [if_neg h1, if_neg h2]
        exact ihr

/-- The explicit fuel `queue.length + pendingBound fs processed + 1` always
lets the worklist loop finish: each iteration either shortens the queue or
moves a listed file into the processed set, paying for its future pushes. -/
theorem scanLoopF_isSome (fs : FS) (repoRoot : String) :
    ∀ (fuel : Nat) (q : List String) (st : ScanState),
      q.length + pendingBound fs st.processed < fuel →
      (scanLoopF fs repoRoot fuel q st).isSome := by
  intro fuel
  induction fuel with
  | zero => intro q st h; omega
  | succ n ih =>
    intro q st h
    match q with
    | [] => simp [scanLoopF]
    | file :: rest =>
      simp only [scanLoopF]
      by_cases hskip : file = "" ∨ file ∈ st.processed
      · simp only [hskip, if_true]
        apply ih
        simp only [List.length_cons] at h
        omega
      · simp only [hskip, if_false]
        cases hp : parseWorkflowFile fs file with
        | error e => simp
        | ok parsed =>
          simp only []
          set st1 : ScanState :=
            { st with processed := file :: st.processed, log := st.log ++ [file] }
            with hst1
          -- the parse succeeded, so the file is listed with non-malformed content
          have hmem : file ∉ st.processed := fun hm => hskip (Or.inr hm)
          obtain ⟨c, hlk, hc⟩ :
              ∃ c, List.lookup file fs = some c ∧ parsed = extractFile file c := by
            unfold parseWorkflowFile at hp
            cases hlk : List.lookup file fs with
            | none => rw [hlk] at hp; exact absurd hp (by simp)
            | some c =>
              cases c with
              | malformed => rw [hlk] at hp; exact absurd hp (by simp)
              | empty =>
                rw [hlk] at hp
                exact ⟨.empty, rfl, by simpa using hp.symm⟩
              | doc d =>
                rw [hlk] at hp
                exact ⟨.doc d, rfl, by simpa using hp.symm⟩
          apply ih
          have hpush := visitStep_pushes_le fs repoRoot file parsed st1
          have hstate := visitStep_state fs repoRoot file parsed st1
          have hrefs := extractFile_refs_le file c
          rw [← hc] at hrefs
          have hpend : pendingBound fs (file :: st.processed) + refBound c ≤
              pendingBound fs st.processed :=
            pendingBound_visit fs file c st.processed hlk hmem
          rw [hstate.1]
          simp only [hst1, List.length_append, List.length_cons] at *
          omega

/-! ## The additional-paths phase and the whole scan -/

/-- The inner `for (const file of files)` loop of the additional-paths
phase: a not-yet-processed file is probed with `isCompositeAction` (one
read); a composite manifest is marked processed, parsed again (another
read), its remote dependencies merged, and its local-action references
pushed onto `queue` — which is `filesToProcess`, no longer drained by
anything. Callable workflows are not handled here. -/
def extraFilesLoop (fs : FS) (repoRoot : String) :
    List String → ScanState → List String → Except ScanErr (ScanState × List String)
  | [], st, queue => .ok (st, queue)
  | file :: rest, st, queue =>
    if file ∈ st.processed then
      extraFilesLoop fs repoRoot rest st queue
    else
      let st1 : ScanState := { st with log := st.log ++ [file] }
      if isCompositeAction fs file then
        let st2 : ScanState :=
          { st1 with processed := file :: st1.processed, log := st1.log ++ [file] }
        match parseWorkflowFile fs file with
        | .error e => .error e
        | .ok parsed =>
          let st3 : ScanState := { st2 with deps := addDeps st2.deps parsed.dependencies }
          let r := processLocalActions fs repoRoot file parsed.localActions st3
          extraFilesLoop fs repoRoot rest r.2 (queue ++ r.1)
      else
        extraFilesLoop fs repoRoot rest st1 queue

/-- The outer `for (const additionalPath of additionalPaths)` loop:
walk `path.join(repoRoot, additionalPath)` and run the file loop. -/
def extraPhase (fs : FS) (repoRoot : String) :
    List String → ScanState → List String → Except ScanErr (ScanState × List String)
  | [], st, queue => .ok (st, queue)
  | ap :: rest, st, queue =>
    match extraFilesLoop fs repoRoot (findWorkflowFiles fs (joinPath repoRoot ap)) st queue with
    | .error e => .error e
    | .ok (st', queue') => extraPhase fs repoRoot rest st' queue'

/-- `scanDependencies` from `src/dependency-scanner.ts`, with the final
state and the dead queue exposed: seed the worklist with the pipeline files
under `workflowPath`, drain it, then run the additional-paths phase (whose
pushes land on the already-drained queue and are returned untouched). The
worklist fuel is the bound shown sufficient by `scanLoopF_isSome`. -/
def runScan (fs : FS) (workflowPath : String) (additionalPaths : List String)
    (repoRoot : String) : Except ScanErr (ScanState × List String) :=
  match (scanLoopF fs repoRoot
      ((findWorkflowFiles fs workflowPath).length + pendingBound fs [] + 1)
      (findWorkflowFiles fs workflowPath) ⟨[], [], []⟩).get
      (scanLoopF_isSome fs repoRoot _ _ ⟨[], [], []⟩ (Nat.lt_succ_self _)) with
  | .error e => .error e
  | .ok st => extraPhase fs repoRoot additionalPaths st []

/-- The value `scanDependencies` actually returns: the dependency map
(the dead queue and all working state are dropped). -/
def scanDependencies (fs : FS) (workflowPath : String)
    (additionalPaths : List String) (repoRoot : String) : Except ScanErr DepMap :=
  match runScan fs workflowPath additionalPaths repoRoot with
  | .error e => .error e
  | .ok (st, _) => .ok st.deps

/-! ## Package URLs (`src/dependency-submission.ts`) -/

/-- The JavaScript `dep.name.replace(/\//g, '%2F')`: a global single-char
pattern, so a per-character rewrite. -/
def escSlashes : List Char → List Char
  | [] => []
  | c :: rest => if c = '/' then '%' :: '2' :: 'F' :: escSlashes rest else c :: escSlashes rest

/-- `convertToPackageUrl` from `src/dependency-submission.ts`. -/
def convertToPackageUrl (dep : ActionDependency) : String :=
  "pkg:github/" ++ String.mk (escSlashes dep.name.data) ++ "@" ++ dep.version

/-! ## Spec-side containment predicate

Used to state the path-traversal claim: the specification's notion of a
resolution that "escapes repositoryRoot". -/

/-- A path lies within the repository root when it is the root itself or a
descendant of it (root followed by a path separator). This is the
specification's containment notion, stated independently of the source's
string-prefix test. -/
def isWithinRoot (root p : String) : Bool :=
  p = root || strStartsWith p (root ++ "/")

/-! ## Fork resolution, modelled from the spec

`src/fork-resolver.ts` is not in the source tree; only its unit tests are.
The following definitions are modelled from the specification (§4.3) and
checked against those tests. -/

/-- A remote dependency as consumed by the fork resolver (the shape used
throughout its unit tests). -/
structure RemoteDep where
  owner : String
  repo : String
  ref : String
  uses : String
deriving DecidableEq

/-- An upstream original: owner and repo only, no version. -/
structure Original where
  owner : String
  repo : String
deriving DecidableEq

/-- A fork-resolved dependency: the dependency plus its optional upstream. -/
structure ResolvedDependency where
  owner : String
  repo : String
  ref : String
  original : Option Original
deriving DecidableEq

/-- The outcome of the repository-metadata lookup capability: the
repository is not a fork, is a fork of the reported upstream, or the
lookup failed (network, auth, not-found — all treated identically). -/
inductive LookupResult where
  | notFork
  | fork (owner repo : String)
  | failure
deriving DecidableEq

/-- The fork resolver's configuration: the allow-listed organizations, the
optional pattern (abstracted to its matching function, which returns the
`org` and `repo` captures on success), and the lookup capability. -/
structure ForkConfig where
  forkOrganizations : List String
  forkPattern : Option (String → Option (String × String))
  lookup : String → String → LookupResult

/-- Modelled from the spec: the per-dependency branch of
`ForkResolver.resolveDependencies` (src/fork-resolver.ts is absent from the
source tree). A dependency whose owner is not allow-listed is emitted
unresolved with no lookup. Otherwise the configured pattern is tried
against `owner/repo`; a match yields the captures as the original. With no
pattern, or on a pattern miss, the lookup capability decides: a reported
fork yields the reported upstream, anything else (not a fork, or any
failure) leaves the original absent. -/
def resolveOne (cfg : ForkConfig) (d : RemoteDep) : ResolvedDependency :=
  if cfg.forkOrganizations.contains d.owner then
    let fromLookup : Option Original :=
      match cfg.lookup d.owner d.repo with
      | .fork o r => some ⟨o, r⟩
      | .notFork => none
      | .failure => none
    match cfg.forkPattern with
    | some pat =>
      match pat (d.owner ++ "/" ++ d.repo) with
      | some (org, repo) => ⟨d.owner, d.repo, d.ref, some ⟨org, repo⟩⟩
      | none => ⟨d.owner, d.repo, d.ref, fromLookup⟩
    | none => ⟨d.owner, d.repo, d.ref, fromLookup⟩
  else ⟨d.owner, d.repo, d.ref, none⟩

/-- First-occurrence deduplication of the resolver's input, keyed by
owner/repo/ref (the layer's `coordinate@version` identity). -/
def dedupRemote (seen : List (String × String × String)) :
    List RemoteDep → List RemoteDep
  | [] => []
  | d :: rest =>
    if (d.owner, d.repo, d.ref) ∈ seen then dedupRemote seen rest
    else d :: dedupRemote ((d.owner, d.repo, d.ref) :: seen) rest

/-- Modelled from the spec: `ForkResolver.resolveDependencies` — deduplicate
by identity, then resolve each dependency independently. Total: no input
makes it fail. -/
def resolveDependencies (cfg : ForkConfig) (deps : List RemoteDep) :
    List ResolvedDependency :=
  (dedupRemote [] deps).map (resolveOne cfg)

/-- The concrete pattern `(?<org>[^\/]+)\/actions-(?<repo>.+)` anchored on
both sides, used by the repository's tests and the spec's examples: the
text before the first slash is the `org` capture, the remainder must start
with `actions-`, and what follows that prefix is the `repo` capture. -/
def enterprisePattern (s : String) : Option (String × String) :=
  match splitAtFirst '/' s.data with
  | some (org, rest) =>
    if org ≠ [] ∧ "actions-".data.isPrefixOf rest ∧ 8 < rest.length then
      some (String.mk org, String.mk (rest.drop 8))
    else none
  | none => none

/-! ## Dependency aggregation for submission, modelled from the spec

`src/dependency-submitter.ts` is likewise absent from the source tree. -/

/-- The submission identifier of a resolved dependency:
`owner/repo@version`. -/
def submissionId (d : ResolvedDependency) : String :=
  d.owner ++ "/" ++ d.repo ++ "@" ++ d.ref

/-- The submission identifier of an upstream original: `owner/repo`, no
version (the original's version is unknowable). -/
def originalId (o : Original) : String :=
  o.owner ++ "/" ++ o.repo

/-- First-occurrence, order-preserving string deduplication. -/
def dedupAux (seen : List String) : List String → List String
  | [] => []
  | s :: rest =>
    if s ∈ seen then dedupAux seen rest
    else s :: dedupAux (s :: seen) rest

/-- The submission entries contributed by one resolved dependency: itself,
then its original when present. -/
def submissionEntries (d : ResolvedDependency) : List String :=
  submissionId d ::
    (match d.original with
     | some o => [originalId o]
     | none => [])

/-- Modelled from the spec: the aggregation step of the submitter (§4.4) —
each resolved dependency contributes itself (with version) and, when an
original is present, the original (without version); entries are
deduplicated by their final identifier string, insertion order preserved. -/
def aggregateResolved (deps : List ResolvedDependency) : List String :=
  dedupAux [] ((deps.map submissionEntries).flatten)

/-! ## Invariants of the dependency map and the scan -/

/-- The keys of the dependency map are pairwise distinct. -/
def keysNodup (m : DepMap) : Prop := (m.map Prod.fst).Nodup

theorem lookup_none_notMem (k : String) (m : DepMap)
    (h : List.lookup k m = none) : k ∉ m.map Prod.fst := by
  induction m with
  | nil => simp
  | cons e rest ih =>
    obtain ⟨a, b⟩ := e
    simp only [List.lookup] at h
    by_cases he : k = a
    · rw [he] at h
      simp at h
    · have he' : (k == a) = false := by simp [he]
      rw [he'] at h
      simp only [List.map_cons, List.mem_cons]
      rintro (rfl | hm)
      · exact he rfl
      · exact ih h hm

theorem addDep_keysNodup (m : DepMap) (d : ActionDependency)
    (h : keysNodup m) : keysNodup (addDep m d) := by
  unfold addDep
  split
  · exact h
  · rename_i hnone
    have hk : depKey d ∉ m.map Prod.fst :=
      lookup_none_notMem _ _ (Option.not_isSome_iff_eq_none.mp hnone)
    unfold keysNodup at *
    rw [List.map_append]
    refine List.Nodup.append h (by simp) ?_
    intro x hx hmem
    simp only [List.map_cons, List.map_nil, List.mem_singleton] at hmem
    subst hmem
    exact hk hx

theorem addDeps_keysNodup (ds : List ActionDependency) :
    ∀ m : DepMap, keysNodup m → keysNodup (addDeps m ds) := by
  induction ds with
  | nil => intro m h; exact h
  | cons d rest ih =>
    intro m h
    exact ih _ (addDep_keysNodup m d h)

/-- Both invariants carried through the worklist loop: distinct map keys
and a duplicate-free processed set. -/
theorem scanLoopF_inv (fs : FS) (repoRoot : String) :
    ∀ (fuel : Nat) (q : List String) (st r : ScanState),
      scanLoopF fs repoRoot fuel q st = some (.ok r) →
      keysNodup st.deps → st.processed.Nodup →
      keysNodup r.deps ∧ r.processed.Nodup := by
  intro fuel
  induction fuel with
  | zero =>
    intro q st r h
    simp [scanLoopF] at h
  | succ n ih =>
    intro q st r h hk hp
    cases q with
    | nil =>
      simp only [scanLoopF, Option.some.injEq, Except.ok.injEq] at h
      subst h
      exact ⟨hk, hp⟩
    | cons file rest =>
      simp only [scanLoopF] at h
      by_cases hskip : file = "" ∨ file ∈ st.processed
      · rw [if_pos hskip] at h
        exact ih rest st r h hk hp
      · rw [if_neg hskip] at h
        cases hpf : parseWorkflowFile fs file with
        | error e =>
          rw [hpf] at h
          simp at h
        | ok parsed =>
          rw [hpf] at h
          refine ih _ _ r h ?_ ?_
          · rw [(visitStep_state fs repoRoot file parsed _).2]
            exact addDeps_keysNodup parsed.dependencies _ hk
          · rw [(visitStep_state fs repoRoot file parsed _).1]
            exact List.Nodup.cons (fun hm => hskip (Or.inr hm)) hp

theorem extraFilesLoop_inv (fs : FS) (repoRoot : String) :
    ∀ (files : List String) (st : ScanState) (queue : List String)
      (st' : ScanState) (queue' : List String),
      extraFilesLoop fs repoRoot files st queue = .ok (st', queue') →
      keysNodup st.deps → st.processed.Nodup →
      keysNodup st'.deps ∧ st'.processed.Nodup := by
  intro files
  induction files with
  | nil =>
    intro st q st' q' h hk hp
    simp only [extraFilesLoop, Except.ok.injEq, Prod.mk.injEq] at h
    rw [← h.1]
    exact ⟨hk, hp⟩
  | cons file rest ih =>
    intro st q st' q' h hk hp
    simp only [extraFilesLoop] at h
    by_cases hmem : file ∈ st.processed
    · rw [if_pos hmem] at h
      exact ih _ _ _ _ h hk hp
    · rw [if_neg hmem] at h
      by_cases hcomp : isCompositeAction fs file = true
      · rw [if_pos hcomp] at h
        cases hpf : parseWorkflowFile fs file with
        | error e =>
          rw [hpf] at h
          simp at h
        | ok parsed =>
          rw [hpf] at h
          refine ih _ _ _ _ h ?_ ?_
          · rw [(processLocalActions_processed fs repoRoot file parsed.localActions _).2]
            exact addDeps_keysNodup parsed.dependencies _ hk
          · rw [(processLocalActions_processed fs repoRoot file parsed.localActions _).1]
            exact List.Nodup.cons hmem hp
      · rw [if_neg hcomp] at h
        exact ih _ _ _ _ h hk hp

theorem extraPhase_inv (fs : FS) (repoRoot : String) :
    ∀ (aps : List String) (st : ScanState) (queue : List String)
      (st' : ScanState) (queue' : List String),
      extraPhase fs repoRoot aps st queue = .ok (st', queue') →
      keysNodup st.deps → st.processed.Nodup →
      keysNodup st'.deps ∧ st'.processed.Nodup := by
  intro aps
  induction aps with
  | nil =>
    intro st q st' q' h hk hp
    simp only [extraPhase, Except.ok.injEq, Prod.mk.injEq] at h
    rw [← h.1]
    exact ⟨hk, hp⟩
  | cons ap rest ih =>
    intro st q st' q' h hk hp
    simp only [extraPhase] at h
    cases hfl : extraFilesLoop fs repoRoot
        (findWorkflowFiles fs (joinPath repoRoot ap)) st q with
    | error e =>
      rw [hfl] at h
      simp at h
    | ok p =>
      rw [hfl] at h
      obtain ⟨st1, q1⟩ := p
      have h1 := extraFilesLoop_inv fs repoRoot _ _ _ _ _ hfl hk hp
      exact ih _ _ _ _ h h1.1 h1.2

/-- The invariants hold of every successful scan. -/
theorem runScan_inv (fs : FS) (workflowPath : String)
    (additionalPaths : List String) (repoRoot : String) (st : ScanState)
    (dq : List String)
    (h : runScan fs workflowPath additionalPaths repoRoot = .ok (st, dq)) :
    keysNodup st.deps ∧ st.processed.Nodup := by
  unfold runScan at h
  set o := scanLoopF fs repoRoot
      ((findWorkflowFiles fs workflowPath).length + pendingBound fs [] + 1)
      (findWorkflowFiles fs workflowPath) ⟨[], [], []⟩ with ho
  cases hg : o.get (scanLoopF_isSome fs repoRoot _ _ _ (Nat.lt_succ_self _)) with
  | error e =>
    rw [hg] at h
    simp at h
  | ok st0 =>
    rw [hg] at h
    have hsome : o = some (.ok st0) := by
      rw [← hg]
      exact (Option.some_get _).symm
    have h0 := scanLoopF_inv fs repoRoot _ _ _ _ (ho ▸ hsome)
      (by simp [keysNodup]) (by simp)
    exact extraPhase_inv fs repoRoot _ _ _ _ _ h h0.1 h0.2

/-! ## String facts used by the claims -/

theorem dataAppend (s t : String) : (s ++ t).data = s.data ++ t.data := by
  cases s
  cases t
  rfl

theorem escSlashes_no_slash : ∀ l : List Char, '/' ∉ escSlashes l := by
  intro l
  induction l with
  | nil => simp [escSlashes]
  | cons c rest ih =>
    simp only [escSlashes]
    by_cases hc : c = '/'
    · rw [if_pos hc]
      intro h
      rcases List.mem_cons.mp h with h1 | h
      · exact absurd h1 (by decide)
      rcases List.mem_cons.mp h with h1 | h
      · exact absurd h1 (by decide)
      rcases List.mem_cons.mp h with h1 | h
      · exact absurd h1 (by decide)
      · exact ih h
    · rw [if_neg hc]
      intro h
      rcases List.mem_cons.mp h with h1 | h
      · exact hc h1.symm
      · exact ih h

theorem splitAtFirst_eq_none (c : Char) :
    ∀ l : List Char, c ∉ l → splitAtFirst c l = none := by
  intro l
  induction l with
  | nil => intro _; rfl
  | cons x xs ih =>
    intro h
    have hx : ¬ x = c := fun he => h (he ▸ List.mem_cons_self x xs)
    simp only [splitAtFirst, if_neg hx]
    rw [ih (fun hm => h (List.mem_cons_of_mem x hm))]
    rfl

theorem strStartsWith_head (s pre : String) (c : Char) (cs : List Char)
    (hpre : pre.data = c :: cs) (h : strStartsWith s pre = true) :
    ∃ t, s.data = c :: t := by
  unfold strStartsWith at h
  rw [hpre] at h
  cases hsd : s.data with
  | nil =>
    rw [hsd] at h
    simp [List.isPrefixOf] at h
  | cons x xs =>
    rw [hsd] at h
    simp only [List.isPrefixOf, Bool.and_eq_true, beq_iff_eq] at h
    exact ⟨xs, by rw [h.1]⟩

theorem isLocalRef_head (s : String) (h : isLocalRef s = true) :
    ∃ t, s.data = '.' :: t := by
  have h' : ((strStartsWith s "./" = true ∨ strStartsWith s "../" = true) ∨
      strStartsWith s ".\\" = true) ∨ strStartsWith s "..\\" = true := by
    simpa [isLocalRef] using h
  rcases h' with ((h1 | h1) | h1) | h1
  · exact strStartsWith_head s "./" '.' ['/'] rfl h1
  · exact strStartsWith_head s "../" '.' ['.', '/'] rfl h1
  · exact strStartsWith_head s ".\\" '.' ['\\'] rfl h1
  · exact strStartsWith_head s "..\\" '.' ['.', '\\'] rfl h1

theorem localRef_not_docker (s : String) (h : isLocalRef s = true) :
    strStartsWith s "docker://" = false := by
  obtain ⟨t, ht⟩ := isLocalRef_head s h
  cases hb : strStartsWith s "docker://" with
  | false => rfl
  | true =>
    obtain ⟨u, hu⟩ := strStartsWith_head s "docker://" 'd' "ocker://".data rfl hb
    rw [ht] at hu
    injection hu with h1 _
    exact absurd h1 (by decide)

theorem docker_not_localRef (s : String) (h : strStartsWith s "docker://" = true) :
    isLocalRef s = false := by
  obtain ⟨t, ht⟩ := strStartsWith_head s "docker://" 'd' "ocker://".data rfl h
  cases hb : isLocalRef s with
  | false => rfl
  | true =>
    obtain ⟨u, hu⟩ := isLocalRef_head s hb
    rw [ht] at hu
    injection hu with h1 _
    exact absurd h1 (by decide)

/-! ## Facts about the aggregation dedup -/

theorem mem_dedupAux_or (a : String) :
    ∀ (l seen : List String), a ∈ l → a ∈ dedupAux seen l ∨ a ∈ seen := by
  intro l
  induction l with
  | nil => simp
  | cons s rest ih =>
    intro seen ha
    simp only [dedupAux]
    by_cases hs : s ∈ seen
    · rw [if_pos hs]
      rcases List.mem_cons.mp ha with rfl | ha'
      · exact Or.inr hs
      · exact ih seen ha'
    · rw [if_neg hs]
      rcases List.mem_cons.mp ha with rfl | ha'
      · exact Or.inl (List.mem_cons_self _ _)
      · rcases ih (s :: seen) ha' with h | h
        · exact Or.inl (List.mem_cons_of_mem _ h)
        · rcases List.mem_cons.mp h with rfl | h2
          · exact Or.inl (List.mem_cons_self _ _)
          · exact Or.inr h2

theorem at_mem_submissionId (d : ResolvedDependency) :
    '@' ∈ (submissionId d).data := by
  unfold submissionId
  rw [dataAppend, dataAppend]
  refine List.mem_append.mpr (Or.inl (List.mem_append.mpr (Or.inr ?_)))
  decide

/-! ## Concrete filesystems used by the claim theorems -/

/-- A step with a `uses` field. -/
def stepUses (u : String) : Step := ⟨some u⟩

/-- A job with steps only (no job-level `uses`). -/
def wfJob (steps : List Step) : Job := ⟨none, some steps⟩

/-- A workflow document (has `jobs`, no composite `runs`). -/
def wfDoc (jobs : List (String × Job)) : YamlContent :=
  .doc ⟨false, none, some jobs⟩

/-- A composite-action document (`runs.using: composite` with steps). -/
def compDoc (steps : List Step) : YamlContent :=
  .doc ⟨true, some steps, none⟩

/-- C1 fixture: a workflow directory holding one well-formed pipeline file
and one file whose YAML is malformed. -/
def fs1 : FS := [
  ("/repo/.github/workflows/good.yml",
    wfDoc [("build", wfJob [stepUses "actions/checkout@v4"])]),
  ("/repo/.github/workflows/bad.yml", .malformed)
]

/-- C2 fixture: a pipeline whose local action reference climbs out of the
repository into the sibling directory `/repo-evil`. -/
def fs2 : FS := [
  ("/repo/.github/workflows/ci.yml",
    wfDoc [("build", wfJob [stepUses "../../../repo-evil/action",
                            stepUses "actions/checkout@v4"])]),
  ("/repo-evil/action/action.yml", compDoc [stepUses "evil/backdoor@v1"])
]

/-- The final scan state over `fs2`: the out-of-root manifest is processed
and its dependency harvested. -/
def fs2Final : ScanState :=
  ⟨[("actions/checkout@v4", ⟨"actions/checkout", "v4", "actions/checkout@v4"⟩),
    ("evil/backdoor@v1", ⟨"evil/backdoor", "v1", "evil/backdoor@v1"⟩)],
   ["/repo-evil/action/action.yml", "/repo/.github/workflows/ci.yml"],
   ["/repo/.github/workflows/ci.yml", "/repo-evil/action/action.yml",
    "/repo-evil/action/action.yml"]⟩

/-- C3 fixture: an empty primary tree; the extra directory `shared` holds a
composite action whose local reference leads to a second composite action
outside the extra directory, carrying its own remote dependency. -/
def fs3 : FS := [
  ("/repo/shared/a/action.yml",
    compDoc [stepUses "actions/cache@v3", stepUses "../../other/b"]),
  ("/repo/other/b/action.yml", compDoc [stepUses "actions/setup-node@v4"])
]

/-- The final scan state over `fs3`: only the directly-listed composite was
processed; the nested one sits on the dead queue. -/
def fs3Final : ScanState :=
  ⟨[("actions/cache@v3", ⟨"actions/cache", "v3", "actions/cache@v3"⟩)],
   ["/repo/shared/a/action.yml"],
   ["/repo/shared/a/action.yml", "/repo/shared/a/action.yml",
    "/repo/other/b/action.yml"]⟩

/-- C7 fixture: two pipeline files referencing the same `coordinate@ref`. -/
def fs7 : FS := [
  ("/repo/.github/workflows/w1.yml",
    wfDoc [("a", wfJob [stepUses "actions/checkout@v4"])]),
  ("/repo/.github/workflows/w2.yml",
    wfDoc [("b", wfJob [stepUses "actions/checkout@v4", stepUses "actions/cache@v3"])])
]

/-- The dependency map the scan over `fs7` produces. -/
def fs7Deps : DepMap :=
  [("actions/checkout@v4", ⟨"actions/checkout", "v4", "actions/checkout@v4"⟩),
   ("actions/cache@v3", ⟨"actions/cache", "v3", "actions/cache@v3"⟩)]

/-- C8 fixture: a cyclic local-reference graph — the pipeline uses composite
action `a`, whose steps reference composite action `b`, whose steps
reference `a` again. -/
def fscyc : FS := [
  ("/repo/.github/workflows/ci.yml",
    wfDoc [("j", wfJob [stepUses "../../actions/a"])]),
  ("/repo/actions/a/action.yml",
    compDoc [stepUses "actions/checkout@v4", stepUses "../b"]),
  ("/repo/actions/b/action.yml",
    compDoc [stepUses "actions/cache@v3", stepUses "../a"])
]

/-- The final scan state over `fscyc`: both remote dependencies found, each
manifest extracted once, the cycle broken by the processed set. -/
def fscycFinal : ScanState :=
  ⟨[("actions/checkout@v4", ⟨"actions/checkout", "v4", "actions/checkout@v4"⟩),
    ("actions/cache@v3", ⟨"actions/cache", "v3", "actions/cache@v3"⟩)],
   ["/repo/actions/b/action.yml", "/repo/actions/a/action.yml",
    "/repo/.github/workflows/ci.yml"],
   ["/repo/.github/workflows/ci.yml", "/repo/actions/a/action.yml",
    "/repo/actions/a/action.yml", "/repo/actions/b/action.yml",
    "/repo/actions/b/action.yml"]⟩

/-- C8 counterexample fixture: two pipeline files whose reference sites both
point at the same composite action. -/
def fs8 : FS := [
  ("/repo/.github/workflows/w1.yml",
    wfDoc [("a", wfJob [stepUses "../../actions/x"])]),
  ("/repo/.github/workflows/w2.yml",
    wfDoc [("b", wfJob [stepUses "../../actions/x"])]),
  ("/repo/actions/x/action.yml", compDoc [stepUses "actions/checkout@v4"])
]

/-- The final scan state over `fs8`: the shared manifest shows up three
times in the read log — one composite probe per reference site plus the
final extraction. -/
def fs8Final : ScanState :=
  ⟨[("actions/checkout@v4", ⟨"actions/checkout", "v4", "actions/checkout@v4"⟩)],
   ["/repo/actions/x/action.yml", "/repo/.github/workflows/w2.yml",
    "/repo/.github/workflows/w1.yml"],
   ["/repo/.github/workflows/w1.yml", "/repo/actions/x/action.yml",
    "/repo/.github/workflows/w2.yml", "/repo/actions/x/action.yml",
    "/repo/actions/x/action.yml"]⟩

/-- The concrete failing lookup used by the fork-resolution witnesses. -/
def failLookup : String → String → LookupResult := fun _ _ => .failure

/-- The fork configuration of the spec's pattern example: `enterprise`
allow-listed, the `actions-` pattern configured, every lookup failing. -/
def entCfg : ForkConfig := ⟨["enterprise"], some enterprisePattern, failLookup⟩

/-- The spec's pattern-example dependency `enterprise/actions-checkout@v4`. -/
def entDep : RemoteDep :=
  ⟨"enterprise", "actions-checkout", "v4", "enterprise/actions-checkout@v4"⟩

/-! ## The claims -/

/-- Claim C1 (the code violates it): `parseWorkflowFile` catches nothing, so
one malformed pipeline file makes the whole scan reject instead of
contributing zero references — even though the sibling file's dependency
was extractable in isolation. -/
theorem c1_scan_aborts_on_malformed :
    scanDependencies fs1 "/repo/.github/workflows" [] "/repo" =
      .error (.parseError "/repo/.github/workflows/bad.yml") ∧
    parseWorkflowFile fs1 "/repo/.github/workflows/good.yml" =
      .ok ⟨"/repo/.github/workflows/good.yml",
           [⟨"actions/checkout", "v4", "actions/checkout@v4"⟩], [], []⟩ :=
  ⟨rfl, rfl⟩

/-- Claim C2 (the code violates it): the containment check is a raw string
prefix test, so a reference resolving to the sibling directory `/repo-evil`
— outside repository root `/repo` — is not dropped: `resolveLocalPath`
returns it and the scan goes on to read, parse and harvest the out-of-root
manifest. -/
theorem c2_path_traversal_escape :
    resolveLocalPath "/repo/.github/workflows/ci.yml" "../../../repo-evil/action"
        "/repo" = some "/repo-evil/action" ∧
    isWithinRoot "/repo" "/repo-evil/action" = false ∧
    runScan fs2 "/repo/.github/workflows" [] "/repo" = .ok (fs2Final, []) :=
  ⟨rfl, rfl, rfl⟩

/-- Claim C3 (the code violates it): a composite action found under an
extra directory does have its nested composite reference resolved and
enqueued — but onto the already-drained worklist, which nothing pops again,
so the nested action's remote dependency (`actions/setup-node@v4`, shown
extractable below) never reaches the result map. -/
theorem c3_extra_dir_nested_unprocessed :
    scanDependencies fs3 "/repo/.github/workflows" ["shared"] "/repo" =
      .ok [("actions/cache@v3", ⟨"actions/cache", "v3", "actions/cache@v3"⟩)] ∧
    runScan fs3 "/repo/.github/workflows" ["shared"] "/repo" =
      .ok (fs3Final, ["/repo/other/b/action.yml"]) ∧
    isCompositeAction fs3 "/repo/other/b/action.yml" = true ∧
    parseWorkflowFile fs3 "/repo/other/b/action.yml" =
      .ok ⟨"/repo/other/b/action.yml",
           [⟨"actions/setup-node", "v4", "actions/setup-node@v4"⟩], [], []⟩ :=
  ⟨rfl, rfl, rfl, rfl⟩

/-- Claim C4: a resolved dependency with a present original contributes
exactly two submission entries — the fork with its version and the original
without one — while a dependency without an original contributes exactly
one; and in any batch both entries of every resolved dependency appear in
the aggregated output. -/
theorem c4_fork_aggregation :
    (∀ (d : ResolvedDependency) (o : Original), d.original = some o →
        '@' ∉ (originalId o).data →
        aggregateResolved [d] = [submissionId d, originalId o])
  ∧ (∀ d : ResolvedDependency, d.original = none →
        aggregateResolved [d] = [submissionId d])
  ∧ (∀ (ds : List ResolvedDependency) (d : ResolvedDependency), d ∈ ds →
        submissionId d ∈ aggregateResolved ds ∧
        ∀ o : Original, d.original = some o →
          originalId o ∈ aggregateResolved ds) := by
  refine ⟨?_, ?_, ?_⟩
  · intro d o hd hat
    have hne : ¬ (originalId o = submissionId d) := by
      intro he
      exact hat (he ▸ at_mem_submissionId d)
    simp [aggregateResolved, submissionEntries, hd, dedupAux, hne]
  · intro d hd
    simp [aggregateResolved, submissionEntries, hd, dedupAux]
  · intro ds d hmem
    constructor
    · have hsub : submissionId d ∈ (ds.map submissionEntries).flatten := by
        refine List.mem_flatten.mpr ⟨submissionEntries d, List.mem_map_of_mem _ hmem, ?_⟩
        simp [submissionEntries]
      rcases mem_dedupAux_or _ _ [] hsub with h | h
      · exact h
      · simp at h
    · intro o ho
      have horig : originalId o ∈ (ds.map submissionEntries).flatten := by
        refine List.mem_flatten.mpr ⟨submissionEntries d, List.mem_map_of_mem _ hmem, ?_⟩
        simp [submissionEntries, ho]
      rcases mem_dedupAux_or _ _ [] horig with h | h
      · exact h
      · simp at h

/-- Witness for C4: the spec's own example — the resolved fork
`myorg/checkout@v4` with original `actions/checkout` aggregates to exactly
those two entries. -/
theorem c4_fork_aggregation_witness :
    aggregateResolved
        [⟨"myorg", "checkout", "v4", some ⟨"actions", "checkout"⟩⟩] =
      ["myorg/checkout@v4", "actions/checkout"] ∧
    aggregateResolved [⟨"actions", "cache", "v3", none⟩] = ["actions/cache@v3"] := by
  constructor
  · exact c4_fork_aggregation.1
      ⟨"myorg", "checkout", "v4", some ⟨"actions", "checkout"⟩⟩
      ⟨"actions", "checkout"⟩ rfl (by decide)
  · exact c4_fork_aggregation.2.1 ⟨"actions", "cache", "v3", none⟩ rfl

/-- Counterexample for C5: resolving the spec's own pattern example —
`enterprise/actions-checkout@v4` against the `actions-` pattern — yields an
original in the dependency's own owner (`enterprise/checkout`), and it is
not suppressed. -/
theorem c5_same_owner_counterexample :
    resolveDependencies entCfg [entDep] =
      [⟨"enterprise", "actions-checkout", "v4",
        some ⟨"enterprise", "checkout"⟩⟩] ∧
    entDep.owner = "enterprise" :=
  ⟨rfl, rfl⟩

/-- Claim C5 (amended): a present original is emitted verbatim — the
pattern's captures, or the upstream reported by the lookup — with no
same-owner suppression; pattern-based resolution may therefore return an
original whose owner equals the dependency's own owner. -/
theorem c5_original_verbatim :
    (∀ (orgs : List String) (pat : String → Option (String × String))
        (lk : String → String → LookupResult) (d : RemoteDep) (org repo : String),
        orgs.contains d.owner = true →
        pat (d.owner ++ "/" ++ d.repo) = some (org, repo) →
        resolveOne ⟨orgs, some pat, lk⟩ d =
          ⟨d.owner, d.repo, d.ref, some ⟨org, repo⟩⟩)
  ∧ (∀ (orgs : List String) (lk : String → String → LookupResult)
        (d : RemoteDep) (o r : String),
        orgs.contains d.owner = true →
        lk d.owner d.repo = .fork o r →
        resolveOne ⟨orgs, none, lk⟩ d =
          ⟨d.owner, d.repo, d.ref, some ⟨o, r⟩⟩) := by
  constructor
  · intro orgs pat lk d org repo h1 h2
    have hmem : d.owner ∈ orgs := by simpa using h1
    simp [resolveOne, h2, hmem]
  · intro orgs lk d o r h1 h2
    have hmem : d.owner ∈ orgs := by simpa using h1
    simp [resolveOne, h2, hmem]

/-- Witness for C5 (amended): the pattern path applied to the enterprise
example, where the emitted original shares the dependency's owner. -/
theorem c5_original_verbatim_witness :
    resolveOne entCfg entDep =
      ⟨"enterprise", "actions-checkout", "v4",
        some ⟨"enterprise", "checkout"⟩⟩ :=
  c5_original_verbatim.1 ["enterprise"] enterprisePattern failLookup entDep
    "enterprise" "checkout" (by decide) (by decide)

/-- Counterexample for C6: at the job-level site a `docker://` reference
containing `@` is not discarded — `parseWorkflowUses` has no docker filter
and classifies it as a remote reference, unlike the step-level site. -/
theorem c6_docker_at_job_level_counterexample :
    parseWorkflowUses "docker://image@sha256:abc" =
      some (.remote "docker://image" "sha256:abc") ∧
    parseActionUses "docker://image@sha256:abc" = none := by
  constructor
  · decide
  · decide

/-- Claim C6 (amended): classification agrees at both sites for local
prefixes and for `coordinate@ref` strings, and a `docker://` string yields
no reference at step level; at job level it yields no reference only when
it contains no `@` — with an `@` it parses as a remote reference. The
unmatched string `invalid` yields no reference at either site, without
error. -/
theorem c6_classification :
    (∀ s : String, isLocalRef s = true →
        parseActionUses s = some (.localRef s) ∧
        parseWorkflowUses s = some (.localRef s))
  ∧ (∀ s : String, strStartsWith s "docker://" = true → parseActionUses s = none)
  ∧ (∀ s : String, strStartsWith s "docker://" = true → '@' ∉ s.data →
        parseWorkflowUses s = none)
  ∧ (parseActionUses "a/b@v1" = some (.remote "a/b" "v1") ∧
     parseWorkflowUses "a/b@v1" = some (.remote "a/b" "v1"))
  ∧ (parseActionUses "a/b/sub@deadbeef" = some (.remote "a/b/sub" "deadbeef") ∧
     parseWorkflowUses "a/b/sub@deadbeef" = some (.remote "a/b/sub" "deadbeef"))
  ∧ (parseActionUses "invalid" = none ∧ parseWorkflowUses "invalid" = none) := by
  refine ⟨?_, ?_, ?_, by decide, by decide, by decide⟩
  · intro s h
    have hd := localRef_not_docker s h
    exact ⟨by simp [parseActionUses, hd, h], by simp [parseWorkflowUses, h]⟩
  · intro s h
    simp [parseActionUses, h]
  · intro s h hat
    have hl := docker_not_localRef s h
    have hr : parseUsesRemote s = none := by
      unfold parseUsesRemote
      rw [splitAtFirst_eq_none '@' s.data hat]
    simp [parseWorkflowUses, hl, hr]

/-- Witness for C6 (amended): the general clauses instantiated at `./x`,
`docker://ubuntu:latest` and `docker://x:y`. -/
theorem c6_classification_witness :
    (isLocalRef "./x" = true ∧
      parseActionUses "./x" = some (.localRef "./x") ∧
      parseWorkflowUses "./x" = some (.localRef "./x")) ∧
    (strStartsWith "docker://ubuntu:latest" "docker://" = true ∧
      parseActionUses "docker://ubuntu:latest" = none) ∧
    (strStartsWith "docker://x:y" "docker://" = true ∧ '@' ∉ "docker://x:y".data ∧
      parseWorkflowUses "docker://x:y" = none) := by
  refine ⟨⟨by decide, ?_, ?_⟩, ⟨by decide, ?_⟩, ⟨by decide, by decide, ?_⟩⟩
  · exact (c6_classification.1 "./x" (by decide)).1
  · exact (c6_classification.1 "./x" (by decide)).2
  · exact c6_classification.2.1 "docker://ubuntu:latest" (by decide)
  · exact c6_classification.2.2.1 "docker://x:y" (by decide) (by decide)

/-- Claim C7: duplicate keys are no-ops (never overwrites), every
successful scan's result map has pairwise-distinct keys, and the fixture
with the same `coordinate@ref` in two files yields exactly one entry for
that key, from the first discovery. -/
theorem c7_first_occurrence_wins :
    (∀ (m : DepMap) (d : ActionDependency),
        (List.lookup (depKey d) m).isSome = true → addDep m d = m)
  ∧ (∀ (fs : FS) (wp : String) (extras : List String) (root : String)
        (res : DepMap),
        scanDependencies fs wp extras root = .ok res →
        (res.map Prod.fst).Nodup)
  ∧ scanDependencies fs7 "/repo/.github/workflows" [] "/repo" = .ok fs7Deps := by
  refine ⟨?_, ?_, rfl⟩
  · intro m d h
    unfold addDep
    rw [if_pos h]
  · intro fs wp extras root res h
    unfold scanDependencies at h
    cases hr : runScan fs wp extras root with
    | error e =>
      rw [hr] at h
      simp at h
    | ok p =>
      rw [hr] at h
      obtain ⟨st, dq⟩ := p
      simp only [Except.ok.injEq] at h
      subst h
      exact (runScan_inv fs wp extras root st dq hr).1

/-- Witness for C7: a duplicate of `actions/checkout@v4` carrying a
different source is a no-op on the map, and the fixture's result map has
distinct keys. -/
theorem c7_first_occurrence_wins_witness :
    ((List.lookup (depKey ⟨"actions/checkout", "v4", "w2"⟩)
        [("actions/checkout@v4",
          (⟨"actions/checkout", "v4", "actions/checkout@v4"⟩ : ActionDependency))]).isSome
        = true ∧
      addDep [("actions/checkout@v4", ⟨"actions/checkout", "v4", "actions/checkout@v4"⟩)]
          ⟨"actions/checkout", "v4", "w2"⟩ =
        [("actions/checkout@v4", ⟨"actions/checkout", "v4", "actions/checkout@v4"⟩)]) ∧
    (fs7Deps.map Prod.fst).Nodup := by
  refine ⟨⟨by decide, ?_⟩, ?_⟩
  · exact c7_first_occurrence_wins.1 _ _ (by decide)
  · exact c7_first_occurrence_wins.2.1 fs7 "/repo/.github/workflows" [] "/repo"
      fs7Deps rfl

/-- Counterexample for C8: with two reference sites pointing at the same
composite action, that file is read and parsed three times (one
`isCompositeAction` probe per site, plus the extraction) — more than once. -/
theorem c8_reads_counterexample :
    runScan fs8 "/repo/.github/workflows" [] "/repo" = .ok (fs8Final, []) ∧
    fs8Final.log.count "/repo/actions/x/action.yml" = 3 ∧ ¬ (3 ≤ 1) :=
  ⟨rfl, by decide, by decide⟩

/-- Claim C8 (amended): the worklist loop terminates on the computed fuel
for every filesystem and queue; every successful scan extracts each file at
most once (the processed set is duplicate-free); and on the cyclic fixture
the scan returns the union of the remote dependencies reachable from the
root — though the composite pre-check re-reads a referenced file once per
reference site, so raw reads can exceed one per file. -/
theorem c8_traversal :
    (∀ (fs : FS) (repoRoot : String) (q : List String) (st : ScanState),
        (scanLoopF fs repoRoot (q.length + pendingBound fs st.processed + 1)
          q st).isSome = true)
  ∧ (∀ (fs : FS) (wp : String) (extras : List String) (root : String)
        (st : ScanState) (dq : List String),
        runScan fs wp extras root = .ok (st, dq) → st.processed.Nodup)
  ∧ runScan fscyc "/repo/.github/workflows" [] "/repo" = .ok (fscycFinal, []) := by
  refine ⟨?_, ?_, rfl⟩
  · intro fs root q st
    exact scanLoopF_isSome fs root _ q st (Nat.lt_succ_self _)
  · intro fs wp extras root st dq h
    exact (runScan_inv fs wp extras root st dq h).2

/-- Witness for C8 (amended): the fuel bound at the cyclic fixture, and the
duplicate-freeness of its processed set obtained from the theorem. -/
theorem c8_traversal_witness :
    (scanLoopF fscyc "/repo"
        (([] : List String).length + pendingBound fscyc [] + 1) []
        ⟨[], [], []⟩).isSome = true ∧
    fscycFinal.processed.Nodup := by
  constructor
  · exact c8_traversal.1 fscyc "/repo" [] ⟨[], [], []⟩
  · exact c8_traversal.2.1 fscyc "/repo/.github/workflows" [] "/repo"
      fscycFinal [] rfl

/-- Claim C9: an allow-listed dependency whose pattern (if any) misses and
whose lookup fails — for any reason — or reports "not a fork" is returned
with `original` absent; resolution is total and never aborts. -/
theorem c9_lookup_failure_degrades (orgs : List String)
    (patOpt : Option (String → Option (String × String)))
    (lk : String → String → LookupResult) (d : RemoteDep)
    (hallow : orgs.contains d.owner = true)
    (hpat : ∀ p, patOpt = some p → p (d.owner ++ "/" ++ d.repo) = none)
    (hlk : lk d.owner d.repo = .failure ∨ lk d.owner d.repo = .notFork) :
    resolveDependencies ⟨orgs, patOpt, lk⟩ [d] =
      [⟨d.owner, d.repo, d.ref, none⟩] := by
  have hded : dedupRemote [] [d] = [d] := by
    simp [dedupRemote]
  unfold resolveDependencies
  rw [hded]
  cases patOpt with
  | none =>
    rcases hlk with h | h <;> simp [resolveOne, hallow, h]
  | some p =>
    have hp := hpat p rfl
    rcases hlk with h | h <;> simp [resolveOne, hallow, hp, h]

/-- Witness for C9: `myorg/checkout@v4` with `myorg` allow-listed, no
pattern, and a failing lookup comes back unresolved, not as an error. -/
theorem c9_lookup_failure_degrades_witness :
    resolveDependencies ⟨["myorg"], none, failLookup⟩
        [⟨"myorg", "checkout", "v4", "myorg/checkout@v4"⟩] =
      [⟨"myorg", "checkout", "v4", none⟩] :=
  c9_lookup_failure_degrades ["myorg"] none failLookup
    ⟨"myorg", "checkout", "v4", "myorg/checkout@v4"⟩
    (by decide) (fun p hp => by simp at hp) (Or.inl rfl)

/-- Claim C10: the package URL is `pkg:github/` plus the coordinate with
every slash percent-encoded as `%2F`, then `@` and the version; the encoded
coordinate contains no literal slash, and `actions/checkout@v4` submits as
`pkg:github/actions%2Fcheckout@v4`. -/
theorem c10_package_url :
    convertToPackageUrl ⟨"actions/checkout", "v4", "actions/checkout@v4"⟩ =
      "pkg:github/actions%2Fcheckout@v4"
  ∧ (∀ s : String, '/' ∉ escSlashes s.data)
  ∧ (∀ dep : ActionDependency, convertToPackageUrl dep =
        "pkg:github/" ++ String.mk (escSlashes dep.name.data) ++ "@" ++ dep.version) :=
  ⟨rfl, fun s => escSlashes_no_slash s.data, fun _ => rfl⟩

end ActionsDeps
